import Mathlib

/-!
Shallow embedding of the machine-lifecycle orchestration core of this
repository (a flyctl fork): the shell command encoder of
internal/command/run, the single-machine and rolling update orchestrator of
internal/machine/update.go, and the ephemeral runner machine provisioning
path, together with proofs of the specified properties.
-/

namespace Flyctl

/-- The single-quote character the shell quoting code works with. -/
def qc : Char := '\''

/-- The backslash character. -/
def bs : Char := '\\'

/-- Index of the first single-quote character, mirroring Go's
`strings.Index(s, "'")`; `none` plays the role of Go's `-1`. -/
def idxQuote : List Char → Option Nat
  | [] => none
  | c :: rest =>
    if c = qc then some 0
    else
      match idxQuote rest with
      | none => none
      | some i => some (i + 1)

/-- The loop body of `quote` (internal/command/run/run.go): each iteration
switches on the index of the first single quote of the remaining input
(`-1`: wrap the rest in quotes unless empty and stop; `0`: emit an escaped
quote and continue past it; `i > 0`: wrap the segment before the quote,
emit an escaped quote, and continue). `fuel` bounds the number of
iterations; every iteration that continues consumes at least one input
character, so `length + 1` fuel is never exhausted. -/
def quoteLoop : Nat → List Char → List Char
  | 0, _ => []
  | Nat.succ fuel, s =>
    match idxQuote s with
    | none => if s = [] then [] else qc :: (s ++ [qc])
    | some 0 => bs :: qc :: quoteLoop fuel (s.drop 1)
    | some (Nat.succ i) =>
      qc :: (s.take (i + 1) ++ qc :: bs :: qc :: quoteLoop fuel (s.drop (i + 2)))

/-- The `quote` function of internal/command/run/run.go. -/
def quote (s : String) : String := String.mk (quoteLoop (s.data.length + 1) s.data)

/-- Segments of a token between its single quotes, in order. This is the
spec-side view of the quoting rule: the token is split at every single-quote
character. -/
def splitQuote : List Char → List (List Char)
  | [] => [[]]
  | c :: rest =>
    if c = qc then [] :: splitQuote rest
    else
      match splitQuote rest with
      | [] => [[c]]
      | seg :: segs => (c :: seg) :: segs

/-- Wrap one segment in a pair of single quotes; an empty segment at a
boundary is emitted bare (the spec's boundary exception). -/
def wrapSeg (seg : List Char) : List Char :=
  if seg = [] then [] else qc :: (seg ++ [qc])

/-- Join the wrapped segments, emitting an escaped quote between adjacent
segments. -/
def joinSegs : List (List Char) → List Char
  | [] => []
  | [seg] => wrapSeg seg
  | seg :: segs => wrapSeg seg ++ bs :: qc :: joinSegs segs

/-- The quoting rule as the spec words it: wrap the token in single quotes
and replace every embedded single quote by closing the quote, emitting an
escaped quote, and reopening it, scanning left to right; empty segments at
the boundaries are dropped rather than wrapped. -/
def quoteSpec (s : String) : String := String.mk (joinSegs (splitQuote s.data))

theorem quoteLoop_none (fuel : Nat) (s : List Char) (h : idxQuote s = none) :
    quoteLoop (fuel + 1) s = if s = [] then [] else qc :: (s ++ [qc]) := by
  rw [quoteLoop, h]

theorem quoteLoop_zero (fuel : Nat) (s : List Char) (h : idxQuote s = some 0) :
    quoteLoop (fuel + 1) s = bs :: qc :: quoteLoop fuel (s.drop 1) := by
  rw [quoteLoop, h]

theorem quoteLoop_pos (fuel : Nat) (s : List Char) (j : Nat) (h : idxQuote s = some (j + 1)) :
    quoteLoop (fuel + 1) s =
      qc :: (s.take (j + 1) ++ qc :: bs :: qc :: quoteLoop fuel (s.drop (j + 2))) := by
  rw [quoteLoop, h]

theorem idxQuote_eq_none {s : List Char} (h : idxQuote s = none) : splitQuote s = [s] := by
  induction s with
  | nil => rfl
  | cons c rest ih =>
    rw [idxQuote] at h
    by_cases hc : c = qc
    · rw [if_pos hc] at h
      exact absurd h (by simp)
    · rw [if_neg hc] at h
      cases hq : idxQuote rest with
      | none => simp [splitQuote, if_neg hc, ih hq]
      | some k =>
        rw [hq] at h
        simp at h

theorem idxQuote_decomp {s : List Char} {i : Nat} (h : idxQuote s = some i) :
    ∃ p rest, s = p ++ qc :: rest ∧ p.length = i ∧ idxQuote p = none := by
  induction s generalizing i with
  | nil => exact absurd h (by simp [idxQuote])
  | cons c rest ih =>
    rw [idxQuote] at h
    by_cases hc : c = qc
    · rw [if_pos hc] at h
      obtain rfl : (0 : Nat) = i := Option.some.inj h
      refine ⟨[], rest, ?_, rfl, rfl⟩
      rw [hc]
      rfl
    · rw [if_neg hc] at h
      cases hq : idxQuote rest with
      | none =>
        rw [hq] at h
        simp at h
      | some k =>
        rw [hq] at h
        simp only [Option.some.injEq] at h
        obtain ⟨p, r, hs, hp, hnone⟩ := ih hq
        refine ⟨c :: p, r, by rw [hs]; rfl, by simp [hp, h], ?_⟩
        rw [idxQuote, if_neg hc, hnone]

theorem splitQuote_append {p : List Char} (rest : List Char) (h : idxQuote p = none) :
    splitQuote (p ++ qc :: rest) = p :: splitQuote rest := by
  induction p with
  | nil => simp [splitQuote]
  | cons c t ih =>
    rw [idxQuote] at h
    by_cases hc : c = qc
    · rw [if_pos hc] at h
      exact absurd h (by simp)
    · rw [if_neg hc] at h
      cases hq : idxQuote t with
      | none => simp [splitQuote, if_neg hc, ih hq]
      | some k =>
        rw [hq] at h
        simp at h

theorem splitQuote_ne_nil (s : List Char) : ∃ g gs, splitQuote s = g :: gs := by
  cases s with
  | nil => exact ⟨[], [], rfl⟩
  | cons c rest =>
    by_cases hc : c = qc
    · exact ⟨[], splitQuote rest, by simp [splitQuote, hc]⟩
    · obtain ⟨g, gs, hgs⟩ := splitQuote_ne_nil rest
      exact ⟨c :: g, gs, by simp [splitQuote, if_neg hc, hgs]⟩

theorem quoteLoop_eq (fuel : Nat) (s : List Char) (h : s.length < fuel) :
    quoteLoop fuel s = joinSegs (splitQuote s) := by
  induction fuel generalizing s with
  | zero => omega
  | succ fuel ih =>
    cases hix : idxQuote s with
    | none =>
      rw [quoteLoop_none fuel s hix, idxQuote_eq_none hix]
      by_cases hs : s = []
      · simp [hs, joinSegs, wrapSeg]
      · simp [hs, joinSegs, wrapSeg]
    | some i =>
      obtain ⟨p, rest, hs, hp, hpn⟩ := idxQuote_decomp hix
      obtain ⟨g, gs, hgs⟩ := splitQuote_ne_nil rest
      cases i with
      | zero =>
        have hpe : p = [] := List.length_eq_zero.mp hp
        subst hpe
        simp only [List.nil_append] at hs
        subst hs
        rw [quoteLoop_zero fuel _ hix]
        have hlen : rest.length < fuel := by
          simp at h
          omega
        rw [List.drop_one, List.tail_cons, ih rest hlen]
        rw [splitQuote, if_pos rfl, hgs]
        simp [joinSegs, wrapSeg]
      | succ j =>
        subst hs
        rw [quoteLoop_pos fuel _ j hix]
        have htake : (p ++ qc :: rest).take (j + 1) = p := by
          rw [← hp]
          exact List.take_left p (qc :: rest)
        have hdrop : (p ++ qc :: rest).drop (j + 2) = rest := by
          have hsplit : p ++ qc :: rest = (p ++ [qc]) ++ rest := by simp
          have hl : j + 2 = (p ++ [qc]).length := by simp [hp]
          rw [hsplit, hl]
          exact List.drop_left (p ++ [qc]) rest
        have hlen : rest.length < fuel := by
          simp at h
          omega
        rw [htake, hdrop, ih rest hlen]
        rw [splitQuote_append rest hpn, hgs]
        have hpne : p ≠ [] := by
          intro hpe
          rw [hpe] at hp
          simp at hp
        simp [joinSegs, wrapSeg, hpne]

theorem quote_eq_quoteSpec (s : String) : quote s = quoteSpec s :=
  congrArg String.mk (quoteLoop_eq (s.data.length + 1) s.data (Nat.lt_succ_self _))

theorem idxQuote_of_not_mem {s : List Char} (h : qc ∉ s) : idxQuote s = none := by
  induction s with
  | nil => rfl
  | cons c rest ih =>
    rw [idxQuote]
    have hc : ¬c = qc := fun he => h (he ▸ List.mem_cons_self c rest)
    rw [if_neg hc, ih (fun hm => h (List.mem_cons_of_mem c hm))]

/-- C3: the encoder's quoting scans left to right, closing the quote, emitting
an escaped quote and reopening it for every single quote of the token (the
segments between quotes are wrapped, empty boundary segments dropped, and the
escaped quote is emitted between them); in particular `quote` maps `'bash'` to
an escaped quote, the wrapped literal, and an escaped quote, and escapes every
embedded quote of `'multiple' 'single quotes'` while preserving the token. -/
theorem quote_escapes_embedded_quotes :
    (∀ s : String, quote s = quoteSpec s)
    ∧ quote "'bash'" = "\\''bash'\\'"
    ∧ quote "'multiple' 'single quotes'" = "\\''multiple'\\'' '\\''single quotes'\\'" :=
  ⟨quote_eq_quoteSpec, by decide, by decide⟩

/-- C4 counterexample: the empty string contains no single quote, yet `quote`
returns it bare instead of wrapping it in a pair of single quotes. -/
theorem quote_empty_counterexample : quote "" = "" ∧ quote "" ≠ "''" :=
  ⟨by decide, by decide⟩

/-- C4 amended: every nonempty string containing no single-quote character is
returned wrapped in exactly one pair of single quotes; the empty string is
returned unchanged (the Go code only wraps when the remaining segment is
nonempty). -/
theorem quote_wraps_nonempty (s : String) (hne : s ≠ "") (hq : qc ∉ s.data) :
    quote s = "'" ++ s ++ "'" := by
  have hd : s.data ≠ [] := by
    intro hdata
    exact hne (String.ext (hdata.trans rfl))
  apply String.ext
  rw [quote]
  rw [quoteLoop_none _ _ (idxQuote_of_not_mem hq), if_neg hd]
  simp [String.data_append]
  rfl

/-- Witness for the amended C4 at the concrete token `bash`. -/
theorem quote_wraps_nonempty_witness :
    ("bash" : String) ≠ "" ∧ qc ∉ ("bash" : String).data
      ∧ quote "bash" = "'" ++ "bash" ++ "'" :=
  ⟨by decide, by decide, quote_wraps_nonempty "bash" (by decide) (by decide)⟩

/-- First-match lookup of the first argument among the `[commands]` aliases of
the app configuration (a Go map scanned for a key equal to `specified`). -/
def lookupCmd : List (String × String) → String → Option String
  | [], _ => none
  | entry :: rest, specified =>
    if entry.1 = specified then some entry.2 else lookupCmd rest specified

/-- The `selectCommand` function of internal/command/run/run.go: the first
argument is resolved through the alias table (the alias value replaces the
quoted first argument verbatim), every remaining argument is quoted, and the
parts are joined with single spaces. Go's cobra layer guarantees at least one
argument, so the arguments are passed as a head and a tail. -/
def selectCommand (commands : List (String × String)) (arg0 : String)
    (rest : List String) : String :=
  let specified := arg0
  let base :=
    match lookupCmd commands specified with
    | some cmd => cmd
    | none => quote specified
  String.intercalate " " (base :: rest.map quote)

/-- C5: the encoded command is the alias value for the first argument
substituted verbatim when present (not re-quoted), otherwise the quoted first
argument, followed by each remaining argument quoted, joined with single
spaces; the alias table mapping deploy to its script encodes the example
invocation accordingly. -/
theorem selectCommand_alias_resolution :
    (∀ (commands : List (String × String)) (arg0 : String) (rest : List String),
       (∀ cmd, lookupCmd commands arg0 = some cmd →
          selectCommand commands arg0 rest = String.intercalate " " (cmd :: rest.map quote))
       ∧ (lookupCmd commands arg0 = none →
          selectCommand commands arg0 rest
            = String.intercalate " " (quote arg0 :: rest.map quote)))
    ∧ selectCommand [("deploy", "./deploy.sh --prod")] "deploy" ["extra arg"]
        = "./deploy.sh --prod 'extra arg'" := by
  constructor
  · intro commands arg0 rest
    constructor
    · intro cmd hl
      simp [selectCommand, hl]
    · intro hl
      simp [selectCommand, hl]
  · decide

/-- Witness for C5 at the alias table of the spec's example. -/
theorem selectCommand_alias_resolution_witness :
    lookupCmd [("deploy", "./deploy.sh --prod")] "deploy" = some "./deploy.sh --prod"
    ∧ selectCommand [("deploy", "./deploy.sh --prod")] "deploy" ["extra arg"]
        = String.intercalate " " ("./deploy.sh --prod" :: ["extra arg"].map quote) :=
  ⟨by decide,
   (selectCommand_alias_resolution.1 _ "deploy" ["extra arg"]).1 "./deploy.sh --prod" (by decide)⟩

/-- The structured request payload attached to a machine event. `GetExitCode`
of the platform api package is not under src/; modelled from the spec: it
extracts the exit code of an exit event when one parses, and fails
otherwise, so it is an optional integer here. -/
structure MachineRequest where
  exitCode : Option Int
  deriving Repr, DecidableEq

/-- An entry of a machine's ordered event log (most recent first, the order
the platform returns events in): a type tag such as "exit" and an optional
structured request payload. -/
structure MachineEvent where
  eventType : String
  request : Option MachineRequest
  deriving Repr, DecidableEq

/-- The machine fields this core reads: identifier, lifecycle state, the
lease nonce held on it (empty when unleased), the configured schedule, and
the event log. -/
structure Machine where
  id : String
  state : String
  leaseNonce : String
  schedule : String
  events : List MachineEvent
  deriving Repr, DecidableEq

/-- The `checkMachineDestruction` function of the ephemeral runner: given the
result of re-fetching the machine and the original wait error, report whether
the machine was destroyed and which error to surface. A fetch failure is
wrapped; a machine neither destroyed nor destroying returns the original
error; otherwise the first exit event of the (most-recent-first) event log
picks between the destroyed-unexpectedly, exited-unexpectedly, and
exited-with-code messages. -/
def checkMachineDestruction (fetched : Except String Machine) (firstErr : String) :
    Bool × String :=
  match fetched with
  | Except.error e => (false, "failed to check status of machine: " ++ e)
  | Except.ok m =>
    if m.state ≠ "destroyed" ∧ m.state ≠ "destroying" then (false, firstErr)
    else
      match m.events.find? (fun ev => ev.eventType == "exit") with
      | none => (true, "machine was destroyed unexpectedly")
      | some ev =>
        match ev.request with
        | none => (true, "machine was destroyed unexpectedly")
        | some req =>
          match req.exitCode with
          | none => (true, "machine exited unexpectedly")
          | some code => (true, "machine exited unexpectedly with code " ++ toString code)

/-- C6: when the re-fetched machine is destroyed or destroying, the reported
error is chosen from the most recent exit event of the event log: no exit
event reports that the machine was destroyed unexpectedly; an exit event
whose exit code does not parse reports that it exited unexpectedly, without
a code; a parsed exit code 137 reports that it exited unexpectedly with
code 137. -/
theorem checkMachineDestruction_error_selection (m : Machine) (firstErr : String)
    (hstate : m.state = "destroyed" ∨ m.state = "destroying") :
    (m.events.find? (fun ev => ev.eventType == "exit") = none →
       checkMachineDestruction (Except.ok m) firstErr
         = (true, "machine was destroyed unexpectedly"))
    ∧ (∀ ev req, m.events.find? (fun ev => ev.eventType == "exit") = some ev →
         ev.request = some req → req.exitCode = none →
         checkMachineDestruction (Except.ok m) firstErr
           = (true, "machine exited unexpectedly"))
    ∧ (∀ ev req, m.events.find? (fun ev => ev.eventType == "exit") = some ev →
         ev.request = some req → req.exitCode = some 137 →
         checkMachineDestruction (Except.ok m) firstErr
           = (true, "machine exited unexpectedly with code 137")) := by
  have hcond : ¬(m.state ≠ "destroyed" ∧ m.state ≠ "destroying") := by
    rcases hstate with h | h <;> simp [h]
  refine ⟨?_, ?_, ?_⟩
  · intro hfind
    rw [checkMachineDestruction, if_neg hcond, hfind]
  · intro ev req hfind hreq hcode
    rw [checkMachineDestruction, if_neg hcond, hfind]
    simp [hreq, hcode]
  · intro ev req hfind hreq hcode
    rw [checkMachineDestruction, if_neg hcond, hfind]
    simp [hreq, hcode]
    rfl

/-- Witness for C6: a destroyed machine whose most recent exit event carries
exit code 137 reports the code in the error. -/
theorem checkMachineDestruction_error_selection_witness :
    checkMachineDestruction
        (Except.ok ⟨"eph1", "destroyed", "", "",
          [⟨"launch", none⟩, ⟨"exit", some ⟨some 137⟩⟩]⟩) "wait timeout"
      = (true, "machine exited unexpectedly with code 137") :=
  (checkMachineDestruction_error_selection
      ⟨"eph1", "destroyed", "", "", [⟨"launch", none⟩, ⟨"exit", some ⟨some 137⟩⟩]⟩
      "wait timeout" (Or.inl rfl)).2.2
    ⟨"exit", some ⟨some 137⟩⟩ ⟨some 137⟩ (by decide) rfl rfl

/-- One observable platform-client call, or operator warning, issued by the
orchestration core, recorded in program order. Wait timeouts are in
seconds. -/
inductive Call where
  | acquireLease (machineId nonce : String)
  | releaseLease (machineId nonce : String)
  | updateMachine (machineId nonce : String)
  | stopMachine (machineId nonce : String)
  | waitState (machineId target : String) (timeoutSeconds : Nat)
  | healthCheck (machineId : String)
  | getCurrentRelease
  | launchMachine
  | getMachine (machineId : String)
  | warnCleanup
  deriving Repr, DecidableEq

/-- Outcomes of the external platform calls the single-machine `Update` makes,
keyed by machine id: `none` is success, `some e` the error returned. -/
structure UpdateEnv where
  updateErr : String → Option String
  waitErr : String → Option String
  checksErr : String → Option String

/-- The `Update` function of internal/machine/update.go: push the new
configuration to the platform carrying the machine's lease nonce; on success
wait five minutes (300 seconds) for "stop" when the machine's config has a
non-empty schedule and for "start" otherwise; then wait for health checks.
Returns the calls issued and the error outcome. -/
def Update (env : UpdateEnv) (m : Machine) : List Call × Option String :=
  match env.updateErr m.id with
  | some e =>
    ([Call.updateMachine m.id m.leaseNonce],
     some ("could not stop machine " ++ m.id ++ ": " ++ e))
  | none =>
    let act := if m.schedule ≠ "" then "stop" else "start"
    match env.waitErr m.id with
    | some e =>
      ([Call.updateMachine m.id m.leaseNonce, Call.waitState m.id act 300], some e)
    | none =>
      match env.checksErr m.id with
      | some e =>
        ([Call.updateMachine m.id m.leaseNonce, Call.waitState m.id act 300,
          Call.healthCheck m.id],
         some ("failed to wait for health checks to pass: " ++ e))
      | none =>
        ([Call.updateMachine m.id m.leaseNonce, Call.waitState m.id act 300,
          Call.healthCheck m.id], none)

/-- The `RollingUpdate` function of internal/machine/update.go, given the
result of `AcquireLeases`: on acquisition failure the error is returned; on
success every machine is updated in turn with each `Update` result discarded,
and one lease release per machine is deferred up front (Go defers run in
reverse order when the function returns). `AcquireLeases` itself is not under
src/; following the spec's "acquire a lease for every machine up front", its
outcome is the `acq` argument and a successful acquisition records one
acquire-lease call per machine before any mutation. -/
def RollingUpdate (env : UpdateEnv) (acq : Except String (List Machine)) :
    List Call × Option String :=
  match acq with
  | Except.error e => ([], some e)
  | Except.ok machines =>
    ((machines.map (fun m => Call.acquireLease m.id m.leaseNonce))
       ++ (machines.map (fun m => (Update env m).1)).flatten
       ++ (machines.reverse.map (fun m => Call.releaseLease m.id m.leaseNonce)),
     none)

/-- The update environment in which machine B's configuration push fails and
every other call succeeds. -/
def envFailB : UpdateEnv :=
  ⟨fun id => if id = "B" then some "update rejected" else none,
   fun _ => none, fun _ => none⟩

/-- Machine A of the rolling-update example, holding lease nonce nA. -/
def machA : Machine := ⟨"A", "started", "nA", "", []⟩

/-- Machine B of the rolling-update example, holding lease nonce nB. -/
def machB : Machine := ⟨"B", "started", "nB", "", []⟩

/-- Machine C of the rolling-update example, holding lease nonce nC. -/
def machC : Machine := ⟨"C", "started", "nC", "", []⟩

/-- C1 counterexample: over machines A, B, C where B's update fails, A and C
are still attempted, but the rolling update reports success: B's failure is
silently dropped from the operation's result, not surfaced to the caller. -/
theorem rollingUpdate_drops_failure_counterexample :
    (Update envFailB machB).2
        = some "could not stop machine B: update rejected"
    ∧ Call.updateMachine "A" "nA" ∈ (RollingUpdate envFailB (Except.ok [machA, machB, machC])).1
    ∧ Call.updateMachine "C" "nC" ∈ (RollingUpdate envFailB (Except.ok [machA, machB, machC])).1
    ∧ (RollingUpdate envFailB (Except.ok [machA, machB, machC])).2 = none := by
  refine ⟨by decide, by decide, by decide, by decide⟩

/-- Every `Update` trace starts with (and therefore contains) the
configuration push for its machine. -/
theorem updateMachine_mem_update (env : UpdateEnv) (m : Machine) :
    Call.updateMachine m.id m.leaseNonce ∈ (Update env m).1 := by
  rw [Update]
  cases env.updateErr m.id with
  | some e => exact List.mem_cons_self _ _
  | none =>
    cases env.waitErr m.id with
    | some e => exact List.mem_cons_self _ _
    | none =>
      cases env.checksErr m.id with
      | some e => exact List.mem_cons_self _ _
      | none => exact List.mem_cons_self _ _

/-- C1 amended: a failure while updating one machine does not prevent the
update from being attempted on every remaining machine, but the per-machine
failures are not surfaced: whenever lease acquisition succeeds the rolling
update discards every `Update` error and reports success. -/
theorem rollingUpdate_best_effort (env : UpdateEnv) (machines : List Machine) :
    (∀ m ∈ machines,
       Call.updateMachine m.id m.leaseNonce ∈ (RollingUpdate env (Except.ok machines)).1)
    ∧ (RollingUpdate env (Except.ok machines)).2 = none := by
  constructor
  · intro m hm
    rw [RollingUpdate]
    refine List.mem_append_left _ (List.mem_append_right _ ?_)
    exact List.mem_flatten.mpr ⟨(Update env m).1, List.mem_map_of_mem _ hm,
      updateMachine_mem_update env m⟩
  · rfl

/-- Witness for the amended C1: machine A's update is attempted in the run in
which B fails. -/
theorem rollingUpdate_best_effort_witness :
    Call.updateMachine "A" "nA"
      ∈ (RollingUpdate envFailB (Except.ok [machA, machB, machC])).1 :=
  (rollingUpdate_best_effort envFailB [machA, machB, machC]).1 machA (by decide)

theorem releaseLease_not_mem_update (env : UpdateEnv) (m : Machine) (mid n : String) :
    Call.releaseLease mid n ∉ (Update env m).1 := by
  rw [Update]
  cases env.updateErr m.id with
  | some e => simp
  | none =>
    cases env.waitErr m.id with
    | some e => simp
    | none =>
      cases env.checksErr m.id with
      | some e => simp
      | none => simp

theorem count_release_map (ms : List Machine) (m : Machine)
    (hnd : (ms.map Machine.id).Nodup) (hm : m ∈ ms) :
    (ms.map (fun x => Call.releaseLease x.id x.leaseNonce)).count
      (Call.releaseLease m.id m.leaseNonce) = 1 := by
  induction ms with
  | nil => exact absurd hm (List.not_mem_nil m)
  | cons x xs ih =>
    rw [List.map_cons, List.nodup_cons] at hnd
    rcases List.mem_cons.mp hm with rfl | hmem
    · have hzero : (xs.map (fun x => Call.releaseLease x.id x.leaseNonce)).count
          (Call.releaseLease m.id m.leaseNonce) = 0 := by
        refine List.count_eq_zero.mpr ?_
        intro hmm
        obtain ⟨y, hy, heq⟩ := List.mem_map.mp hmm
        simp only [Call.releaseLease.injEq] at heq
        exact hnd.1 (heq.1 ▸ List.mem_map_of_mem Machine.id hy)
      simp [List.count_cons, hzero]
    · have hne : Call.releaseLease x.id x.leaseNonce ≠ Call.releaseLease m.id m.leaseNonce := by
        intro heq
        simp only [Call.releaseLease.injEq] at heq
        exact hnd.1 (heq.1 ▸ List.mem_map_of_mem Machine.id hmem)
      simp [List.count_cons, ih hnd.2 hmem, hne]

/-- C2: whenever lease acquisition succeeds, every acquired lease is released
exactly once by the end of the rolling update, whatever the per-machine
update outcomes are (the deferred releases run on the one exit of the
function, after every update attempt). -/
theorem rollingUpdate_releases_each_lease_once (env : UpdateEnv)
    (machines : List Machine) (m : Machine)
    (hnd : (machines.map Machine.id).Nodup) (hm : m ∈ machines) :
    (RollingUpdate env (Except.ok machines)).1.count
      (Call.releaseLease m.id m.leaseNonce) = 1 := by
  rw [RollingUpdate]
  simp only [List.count_append]
  have h1 : (machines.map (fun x => Call.acquireLease x.id x.leaseNonce)).count
      (Call.releaseLease m.id m.leaseNonce) = 0 := by
    refine List.count_eq_zero.mpr ?_
    intro hmm
    obtain ⟨y, _, heq⟩ := List.mem_map.mp hmm
    exact Call.noConfusion heq
  have h2 : ((machines.map (fun x => (Update env x).1)).flatten).count
      (Call.releaseLease m.id m.leaseNonce) = 0 := by
    refine List.count_eq_zero.mpr ?_
    intro hmm
    obtain ⟨l, hl, hml⟩ := List.mem_flatten.mp hmm
    obtain ⟨y, _, rfl⟩ := List.mem_map.mp hl
    exact releaseLease_not_mem_update env y m.id m.leaseNonce hml
  have h3 : (machines.reverse.map (fun x => Call.releaseLease x.id x.leaseNonce)).count
      (Call.releaseLease m.id m.leaseNonce) = 1 := by
    rw [List.map_reverse, List.count_reverse]
    exact count_release_map machines m hnd hm
  rw [h1, h2, h3]

/-- Witness for C2: in the run over A, B, C in which B's update fails, B's
lease is still released exactly once. -/
theorem rollingUpdate_releases_each_lease_once_witness :
    (RollingUpdate envFailB (Except.ok [machA, machB, machC])).1.count
      (Call.releaseLease "B" "nB") = 1 :=
  rollingUpdate_releases_each_lease_once envFailB [machA, machB, machC] machB
    (by decide) (by decide)

/-- C9: when the configuration push succeeds, the single-machine update waits
with a five-minute (300 second) ceiling for the stop transition when the
machine's configuration has a non-empty schedule and for the start transition
otherwise, directly after the push. -/
theorem update_wait_action_and_timeout (env : UpdateEnv) (m : Machine)
    (h : env.updateErr m.id = none) :
    ∃ rest, (Update env m).1
      = Call.updateMachine m.id m.leaseNonce
        :: Call.waitState m.id (if m.schedule ≠ "" then "stop" else "start") 300 :: rest := by
  rw [Update, h]
  cases env.waitErr m.id with
  | some e => exact ⟨[], rfl⟩
  | none =>
    cases env.checksErr m.id with
    | some e => exact ⟨[Call.healthCheck m.id], rfl⟩
    | none => exact ⟨[Call.healthCheck m.id], rfl⟩

/-- A scheduled machine for the C9 witness. -/
def machSched : Machine := ⟨"S", "started", "nS", "daily", []⟩

/-- Witness for C9: the unscheduled machine A waits for start, the scheduled
machine S waits for stop, both with the 300 second ceiling. -/
theorem update_wait_action_and_timeout_witness :
    (∃ rest, (Update envFailB machA).1
      = Call.updateMachine machA.id machA.leaseNonce
        :: Call.waitState machA.id (if machA.schedule ≠ "" then "stop" else "start") 300
        :: rest)
    ∧ (∃ rest, (Update envFailB machSched).1
      = Call.updateMachine machSched.id machSched.leaseNonce
        :: Call.waitState machSched.id (if machSched.schedule ≠ "" then "stop" else "start") 300
        :: rest) :=
  ⟨update_wait_action_and_timeout envFailB machA (by decide),
   update_wait_action_and_timeout envFailB machSched (by decide)⟩

/-- A start-wait failure as `flaps.Wait` reports it: the error message and
whether the error is a `FlapsError` whose response status code is 404. -/
structure WaitFailure where
  is404 : Bool
  msg : String
  deriving Repr, DecidableEq

/-- Outcomes of the external calls `makeEphemeralRunnerMachine` makes: the
current-release lookup (which may fail, or succeed with no release, or yield
an image reference), the launch, the bounded start wait (`none` is success),
and the re-fetch performed by `checkMachineDestruction`. -/
structure EphemeralEnv where
  currentRelease : Except String (Option String)
  launchResult : Except String Machine
  startWait : Option WaitFailure
  refetch : Except String Machine

/-- The `makeEphemeralRunnerMachine` function of the ephemeral runner: require
a current release, launch a machine from it, and wait 15 seconds for the
started state. On a wait failure carrying a 404, consult
`checkMachineDestruction` (which re-fetches the machine); whenever the machine
is not confirmed destroyed, warn that manual cleanup may be required. A launch
failure returns its error directly. Returns the calls issued and either the
machine paired with the ephemeral flag, or the error. -/
def makeEphemeralRunnerMachine (env : EphemeralEnv) :
    List Call × Except String (Machine × Bool) :=
  match env.currentRelease with
  | Except.error e => ([Call.getCurrentRelease], Except.error e)
  | Except.ok none =>
    ([Call.getCurrentRelease],
     Except.error "can't create an ephemeral runner machine since the app has not yet been released")
  | Except.ok (some _) =>
    match env.launchResult with
    | Except.error e =>
      ([Call.getCurrentRelease, Call.launchMachine],
       Except.error ("failed to launch ephemeral runner machine: " ++ e))
    | Except.ok machine =>
      match env.startWait with
      | none =>
        ([Call.getCurrentRelease, Call.launchMachine, Call.waitState machine.id "started" 15],
         Except.ok (machine, true))
      | some wf =>
        if wf.is404 then
          ([Call.getCurrentRelease, Call.launchMachine, Call.waitState machine.id "started" 15,
            Call.getMachine machine.id]
             ++ (if (checkMachineDestruction env.refetch wf.msg).1 then []
                 else [Call.warnCleanup]),
           Except.error (checkMachineDestruction env.refetch wf.msg).2)
        else
          ([Call.getCurrentRelease, Call.launchMachine, Call.waitState machine.id "started" 15,
            Call.warnCleanup],
           Except.error wf.msg)

/-- Outcomes of the teardown calls of the deferred cleanup in `runRun`:
whether the stop request fails, and whether the wait for destruction fails. -/
structure CleanupEnv where
  stopErr : Option String
  destroyWaitErr : Option String

/-- The deferred teardown `runRun` registers for an ephemeral machine: a stop
request carrying an empty lease nonce and a five second timeout, then a wait
for the destroyed state with the same budget; a failure of either step emits
a manual-cleanup warning. -/
def ephemeralCleanup (cenv : CleanupEnv) (m : Machine) : List Call :=
  Call.stopMachine m.id "" ::
    match cenv.stopErr with
    | some _ => [Call.warnCleanup]
    | none =>
      Call.waitState m.id "destroyed" 5 ::
        match cenv.destroyWaitErr with
        | some _ => [Call.warnCleanup]
        | none => []

/-- The platform calls of `runRun`'s default path (no machine selected by id
or prompt): ephemeral machine creation followed, when a machine was created,
by the deferred teardown. -/
def runRunEphemeral (env : EphemeralEnv) (cenv : CleanupEnv) : List Call :=
  match makeEphemeralRunnerMachine env with
  | (calls, Except.ok (m, true)) => calls ++ ephemeralCleanup cenv m
  | (calls, Except.ok (_, false)) => calls
  | (calls, Except.error _) => calls

/-- Whether the calls already issued leave a lease with this nonce held on
this machine: acquired more often than released. -/
def leaseHeld (pre : List Call) (machineId nonce : String) : Bool :=
  pre.count (Call.releaseLease machineId nonce) < pre.count (Call.acquireLease machineId nonce)

/-- The machine id and nonce a call carries when it mutates a machine
(configuration update or stop), and `none` for non-mutating calls. -/
def mutationNonce : Call → Option (String × String)
  | Call.updateMachine mid nonce => some (mid, nonce)
  | Call.stopMachine mid nonce => some (mid, nonce)
  | _ => none

/-- The lease invariant over a call trace, checked left to right with the
already-issued calls accumulating in `pre`: every mutating call carries the
nonce of a lease held on its machine at the time of the call. -/
def mutationsCarryHeldLease : List Call → List Call → Bool
  | _, [] => true
  | pre, c :: rest =>
    (match mutationNonce c with
     | some (mid, nonce) => leaseHeld pre mid nonce
     | none => true)
      && mutationsCarryHeldLease (pre ++ [c]) rest

/-- C10: when the current-release lookup succeeds but finds no release, the
ephemeral runner fails with the app-not-released error before issuing any
launch call. -/
theorem no_release_blocks_ephemeral_creation (env : EphemeralEnv)
    (h : env.currentRelease = Except.ok none) :
    (makeEphemeralRunnerMachine env).2
        = Except.error "can't create an ephemeral runner machine since the app has not yet been released"
    ∧ Call.launchMachine ∉ (makeEphemeralRunnerMachine env).1 := by
  constructor
  · rw [makeEphemeralRunnerMachine, h]
  · rw [makeEphemeralRunnerMachine, h]
    simp

/-- Witness for C10 at a concrete environment with no current release. -/
theorem no_release_blocks_ephemeral_creation_witness :
    (makeEphemeralRunnerMachine
        ⟨Except.ok none, Except.error "unused", none, Except.error "unused"⟩).2
        = Except.error "can't create an ephemeral runner machine since the app has not yet been released"
    ∧ Call.launchMachine ∉ (makeEphemeralRunnerMachine
        ⟨Except.ok none, Except.error "unused", none, Except.error "unused"⟩).1 :=
  no_release_blocks_ephemeral_creation
    ⟨Except.ok none, Except.error "unused", none, Except.error "unused"⟩ rfl

/-- Whether a call is the platform machine fetch. -/
def isGetMachine : Call → Bool
  | Call.getMachine _ => true
  | _ => false

/-- An ephemeral environment whose launch call fails. -/
def envLaunchFail : EphemeralEnv :=
  ⟨Except.ok (some "img"), Except.error "boom", none, Except.error "unused"⟩

/-- C8 counterexample: when the launch itself fails, the runner returns the
launch error directly: it neither fetches the machine's state nor warns about
manual cleanup, contrary to the claim that every launch failure triggers the
confirmation fetch and, absent confirmation, the warning. -/
theorem launch_failure_no_fetch_counterexample :
    (makeEphemeralRunnerMachine envLaunchFail).1
        = [Call.getCurrentRelease, Call.launchMachine]
    ∧ (makeEphemeralRunnerMachine envLaunchFail).2
        = Except.error "failed to launch ephemeral runner machine: boom"
    ∧ (makeEphemeralRunnerMachine envLaunchFail).1.all (fun c => !(isGetMachine c)) = true
    ∧ Call.warnCleanup ∉ (makeEphemeralRunnerMachine envLaunchFail).1 := by
  refine ⟨rfl, rfl, by decide, by decide⟩

/-- C8 amended: when the launched machine's bounded start wait fails, the
runner fetches the machine's current state exactly when the wait error is a
404 platform error (via `checkMachineDestruction`), and warns that manual
cleanup may be required whenever the machine is not confirmed destroyed (a
non-404 wait failure, or a 404 whose confirmation does not find the machine
destroyed); a launch failure is returned directly, with no fetch and no
warning. -/
theorem ephemeral_wait_failure_handling (env : EphemeralEnv) (rel : String)
    (m : Machine) (wf : WaitFailure)
    (hrel : env.currentRelease = Except.ok (some rel)) :
    (env.launchResult = Except.ok m → env.startWait = some wf →
       (wf.is404 = true → Call.getMachine m.id ∈ (makeEphemeralRunnerMachine env).1)
       ∧ ((checkMachineDestruction env.refetch wf.msg).1 = false ∨ wf.is404 = false →
            Call.warnCleanup ∈ (makeEphemeralRunnerMachine env).1)
       ∧ (wf.is404 = false →
            (makeEphemeralRunnerMachine env).1
              = [Call.getCurrentRelease, Call.launchMachine,
                 Call.waitState m.id "started" 15, Call.warnCleanup]))
    ∧ (∀ e, env.launchResult = Except.error e →
         (makeEphemeralRunnerMachine env).1 = [Call.getCurrentRelease, Call.launchMachine]
         ∧ (makeEphemeralRunnerMachine env).2
             = Except.error ("failed to launch ephemeral runner machine: " ++ e)) := by
  constructor
  · intro hl hw
    by_cases h4 : wf.is404 = true
    · refine ⟨fun _ => ?_, fun hnd => ?_, fun hcontra => absurd h4 (by simp [hcontra])⟩
      · simp [makeEphemeralRunnerMachine, hrel, hl, hw, h4]
      · rcases hnd with hnd | hnd
        · simp [makeEphemeralRunnerMachine, hrel, hl, hw, h4, hnd]
        · exact absurd h4 (by simp [hnd])
    · refine ⟨fun hcontra => absurd hcontra h4, fun _ => ?_, fun _ => ?_⟩
      · simp [makeEphemeralRunnerMachine, hrel, hl, hw, h4]
      · simp [makeEphemeralRunnerMachine, hrel, hl, hw, h4]
  · intro e hl
    rw [makeEphemeralRunnerMachine, hrel, hl]
    exact ⟨rfl, rfl⟩

/-- The ephemeral runner machine of the concrete examples. -/
def ephMach : Machine := ⟨"eph1", "created", "", "", []⟩

/-- An ephemeral environment whose start wait fails with a 404 and whose
re-fetch finds the machine still running (not destroyed). -/
def envWait404 : EphemeralEnv :=
  ⟨Except.ok (some "img"), Except.ok ephMach, some ⟨true, "wait timeout"⟩,
   Except.ok ⟨"eph1", "started", "", "", []⟩⟩

/-- Witness for the amended C8: on a 404 wait failure whose confirmation finds
the machine still running, the runner fetches the machine state and warns. -/
theorem ephemeral_wait_failure_handling_witness :
    Call.getMachine "eph1" ∈ (makeEphemeralRunnerMachine envWait404).1
    ∧ Call.warnCleanup ∈ (makeEphemeralRunnerMachine envWait404).1 :=
  ⟨((ephemeral_wait_failure_handling envWait404 "img" ephMach ⟨true, "wait timeout"⟩ rfl).1
      rfl rfl).1 rfl,
   ((ephemeral_wait_failure_handling envWait404 "img" ephMach ⟨true, "wait timeout"⟩ rfl).1
      rfl rfl).2.1 (Or.inl (by decide))⟩

/-- An ephemeral environment in which machine creation and the command run
succeed, so the deferred teardown runs. -/
def envEphOk : EphemeralEnv :=
  ⟨Except.ok (some "img"), Except.ok ephMach, none, Except.error "unused"⟩

/-- A cleanup environment in which both teardown steps succeed. -/
def cleanupOk : CleanupEnv := ⟨none, none⟩

/-- C7 counterexample: the ephemeral runner's teardown issues a stop call
carrying the empty nonce on a machine no lease was ever acquired on, so not
every mutating call carries the nonce of a held lease. -/
theorem ephemeral_stop_without_lease_counterexample :
    Call.stopMachine "eph1" "" ∈ runRunEphemeral envEphOk cleanupOk
    ∧ mutationsCarryHeldLease [] (runRunEphemeral envEphOk cleanupOk) = false := by
  refine ⟨by decide, by decide⟩

theorem mutationsCarryHeldLease_append (pre xs ys : List Call) :
    mutationsCarryHeldLease pre (xs ++ ys)
      = (mutationsCarryHeldLease pre xs && mutationsCarryHeldLease (pre ++ xs) ys) := by
  induction xs generalizing pre with
  | nil => simp [mutationsCarryHeldLease]
  | cons c t ih =>
    rw [List.cons_append, mutationsCarryHeldLease, mutationsCarryHeldLease, ih (pre ++ [c]),
      Bool.and_assoc, List.append_cons pre c t]

theorem mutationsCarryHeldLease_of_none (l : List Call)
    (h : ∀ c ∈ l, mutationNonce c = none) :
    ∀ pre, mutationsCarryHeldLease pre l = true := by
  induction l with
  | nil => intro pre; rfl
  | cons c t ih =>
    intro pre
    rw [mutationsCarryHeldLease, h c (List.mem_cons_self c t),
      ih (fun d hd => h d (List.mem_cons_of_mem c hd)) (pre ++ [c])]
    rfl

theorem leaseHeld_of_acquired (pre : List Call) (mid n : String)
    (hacq : Call.acquireLease mid n ∈ pre) (hrel : Call.releaseLease mid n ∉ pre) :
    leaseHeld pre mid n = true := by
  have h1 : 0 < pre.count (Call.acquireLease mid n) := List.count_pos_iff.mpr hacq
  have h2 : pre.count (Call.releaseLease mid n) = 0 := List.count_eq_zero.mpr hrel
  rw [leaseHeld, h2]
  exact decide_eq_true h1

theorem mutations_hold_in_single_update (env : UpdateEnv) (m : Machine) (pre : List Call)
    (hacq : Call.acquireLease m.id m.leaseNonce ∈ pre)
    (hrel : Call.releaseLease m.id m.leaseNonce ∉ pre) :
    mutationsCarryHeldLease pre (Update env m).1 = true := by
  have hheld : leaseHeld pre m.id m.leaseNonce = true :=
    leaseHeld_of_acquired pre m.id m.leaseNonce hacq hrel
  rw [Update]
  cases env.updateErr m.id with
  | some e => simp [mutationsCarryHeldLease, mutationNonce, hheld]
  | none =>
    cases env.waitErr m.id with
    | some e => simp [mutationsCarryHeldLease, mutationNonce, hheld]
    | none =>
      cases env.checksErr m.id with
      | some e => simp [mutationsCarryHeldLease, mutationNonce, hheld]
      | none => simp [mutationsCarryHeldLease, mutationNonce, hheld]

theorem mutations_hold_in_updates (env : UpdateEnv) (ms : List Machine) :
    ∀ pre : List Call,
      (∀ m ∈ ms, Call.acquireLease m.id m.leaseNonce ∈ pre) →
      (∀ mid n, Call.releaseLease mid n ∉ pre) →
      mutationsCarryHeldLease pre ((ms.map (fun m => (Update env m).1)).flatten) = true := by
  induction ms with
  | nil => intro pre _ _; rfl
  | cons m t ih =>
    intro pre hacq hrel
    rw [List.map_cons, List.flatten_cons, mutationsCarryHeldLease_append]
    have hfirst : mutationsCarryHeldLease pre (Update env m).1 = true :=
      mutations_hold_in_single_update env m pre (hacq m (List.mem_cons_self m t))
        (hrel m.id m.leaseNonce)
    have hrest : mutationsCarryHeldLease (pre ++ (Update env m).1)
        ((t.map (fun x => (Update env x).1)).flatten) = true := by
      refine ih (pre ++ (Update env m).1) ?_ ?_
      · intro x hx
        exact List.mem_append_left _ (hacq x (List.mem_cons_of_mem m hx))
      · intro mid n hmem
        rcases List.mem_append.mp hmem with h | h
        · exact hrel mid n h
        · exact releaseLease_not_mem_update env m mid n h
    rw [hfirst, hrest]
    rfl

theorem stopMachine_not_mem_make (env : EphemeralEnv) (mid n : String) :
    Call.stopMachine mid n ∉ (makeEphemeralRunnerMachine env).1 := by
  rcases env with ⟨cr, lr, sw, rf⟩
  cases cr with
  | error e => simp [makeEphemeralRunnerMachine]
  | ok orel =>
    cases orel with
    | none => simp [makeEphemeralRunnerMachine]
    | some rel =>
      cases lr with
      | error e => simp [makeEphemeralRunnerMachine]
      | ok mach =>
        cases sw with
        | none => simp [makeEphemeralRunnerMachine]
        | some wf =>
          by_cases h4 : wf.is404 = true
          · cases hr : (checkMachineDestruction rf wf.msg).1 with
            | true => simp [makeEphemeralRunnerMachine, h4, hr]
            | false => simp [makeEphemeralRunnerMachine, h4, hr]
          · simp [makeEphemeralRunnerMachine, h4]

/-- C7 amended: every configuration-update call of a rolling update carries
the nonce of a lease acquired on that machine and not yet released at the
time of the call; the only other mutating call this core issues, the
ephemeral runner's teardown stop, always carries the empty nonce (no lease is
ever acquired on the ephemeral machine). -/
theorem mutating_calls_lease_discipline :
    (∀ (env : UpdateEnv) (machines : List Machine),
       mutationsCarryHeldLease [] (RollingUpdate env (Except.ok machines)).1 = true)
    ∧ (∀ (env : EphemeralEnv) (cenv : CleanupEnv) (mid n : String),
       Call.stopMachine mid n ∈ runRunEphemeral env cenv → n = "") := by
  constructor
  · intro env machines
    rw [RollingUpdate]
    have hacqs : ∀ c ∈ machines.map (fun m => Call.acquireLease m.id m.leaseNonce),
        mutationNonce c = none := by
      intro c hc
      obtain ⟨y, _, rfl⟩ := List.mem_map.mp hc
      rfl
    have hrels : ∀ c ∈ machines.reverse.map (fun m => Call.releaseLease m.id m.leaseNonce),
        mutationNonce c = none := by
      intro c hc
      obtain ⟨y, _, rfl⟩ := List.mem_map.mp hc
      rfl
    rw [mutationsCarryHeldLease_append, mutationsCarryHeldLease_append,
      mutationsCarryHeldLease_of_none _ hacqs, mutationsCarryHeldLease_of_none _ hrels]
    have hupd : mutationsCarryHeldLease
        ([] ++ machines.map (fun m => Call.acquireLease m.id m.leaseNonce))
        ((machines.map (fun m => (Update env m).1)).flatten) = true := by
      refine mutations_hold_in_updates env machines _ ?_ ?_
      · intro m hm
        rw [List.nil_append]
        exact List.mem_map_of_mem _ hm
      · intro mid n hmem
        rw [List.nil_append] at hmem
        obtain ⟨y, _, heq⟩ := List.mem_map.mp hmem
        exact Call.noConfusion heq
    rw [hupd]
    rfl
  · intro env cenv mid n hmem
    rw [runRunEphemeral] at hmem
    rcases hmk : makeEphemeralRunnerMachine env with ⟨calls, res⟩
    rw [hmk] at hmem
    have hnotmk : Call.stopMachine mid n ∉ calls := by
      have h := stopMachine_not_mem_make env mid n
      rw [hmk] at h
      exact h
    cases res with
    | error e => exact absurd hmem hnotmk
    | ok p =>
      rcases p with ⟨m, flag⟩
      cases flag with
      | false => exact absurd hmem hnotmk
      | true =>
        simp only [List.mem_append] at hmem
        rcases hmem with hmem | hmem
        · exact absurd hmem hnotmk
        · rcases cenv with ⟨se, dwe⟩
          cases se with
          | some e => simp [ephemeralCleanup] at hmem; exact hmem.2
          | none =>
            cases dwe with
            | some e => simp [ephemeralCleanup] at hmem; exact hmem.2
            | none => simp [ephemeralCleanup] at hmem; exact hmem.2

/-- Witness for the amended C7: the rolling update over A, B, C in which B
fails respects the lease discipline, and the ephemeral teardown's stop call
carries the empty nonce. -/
theorem mutating_calls_lease_discipline_witness :
    mutationsCarryHeldLease [] (RollingUpdate envFailB (Except.ok [machA, machB, machC])).1 = true
    ∧ ("" : String) = "" :=
  ⟨mutating_calls_lease_discipline.1 envFailB [machA, machB, machC],
   mutating_calls_lease_discipline.2 envEphOk cleanupOk "eph1" "" (by decide)⟩

end Flyctl
